import Mathlib

/-!
Verification of the phish-block decision core: a shallow embedding of the
extension's tree-ensemble predictor, prediction cache, whitelist, threshold
policy and decision engine, together with theorems settling the stated
properties of each component.

Conventions of the embedding:
* JavaScript numbers are modelled exactly: values that can be NaN or an
  infinity (feature-vector entries) use the `JSNum` type; all other numeric
  values in the pipeline (tree thresholds, leaf weights, probabilities after
  the source's explicit `Math.round(p * 10000) / 10000`, cache timestamps)
  are exact rationals or naturals.  `Math.exp`/the sigmoid are modelled with
  the real exponential.
* The XGBoost tree format is the array format consumed by
  `Predictor.predictTree`: parallel per-node arrays `left_children`,
  `right_children`, `split_indices`, `split_conditions`, `base_weights`,
  with -1 as the leaf sentinel.  Out-of-range reads use `getD` defaults,
  which agrees with the source on trees whose arrays are parallel (the
  serialized model format guarantees parallel arrays; well-formedness
  predicates in this file include the parallel-lengths condition).
* The source's unbounded `while (true)` traversal loop is modelled by a
  fuel-indexed step function; `none` means the loop has not returned within
  the given fuel.  A deterministic walk that terminates never revisits a
  node index (revisiting would repeat forever), so `numNodes + 1` steps are
  enough fuel for every terminating walk and `predictTree` uses that bound;
  `TreeTerminates` quantifies over all fuels and is used for the
  non-termination results.
* Fallible JavaScript code is modelled with `JSRes`: `thrown` for a raised
  exception, `hangs` for an infinite loop, `val` for a normal return.
* `chrome.storage` round-trips (`load`/`save`) are external I/O and are not
  modelled; the engine state (cache entries, whitelist domains, threshold
  configuration) is threaded explicitly.  Wall-clock latency measurement is
  modelled as 0; `Date.now()` is an explicit `now` parameter.
* The platform's `new URL(u)` parser (a host-environment facility, not
  repository code) is modelled by a small executable parser faithful on
  plain `http(s)://host/path?query#fragment` URLs without userinfo, which is
  the shape the cache normalizer and whitelist rely on.
-/

set_option maxHeartbeats 1000000

namespace PhishBlock

/-- A JavaScript number as used for feature values: NaN, ±Infinity or a
finite value (finite values are modelled as exact rationals). -/
inductive JSNum where
  | nan : JSNum
  | posInf : JSNum
  | negInf : JSNum
  | fin : ℚ → JSNum
deriving DecidableEq

/-- The JavaScript `<` comparison `featureValue < threshold` for a feature
value against a finite split threshold: `NaN < c` is false (so NaN routes to
the right child), `Infinity < c` is false, `-Infinity < c` is true. -/
def jsLt (v : JSNum) (c : ℚ) : Bool :=
  match v with
  | JSNum.nan => false
  | JSNum.posInf => false
  | JSNum.negInf => true
  | JSNum.fin q => decide (q < c)

/-- One tree of the ensemble in the XGBoost array format read by
`Predictor.predictTree`: parallel per-node arrays, child index -1 is the
leaf sentinel. -/
structure Tree where
  left_children : List ℤ
  right_children : List ℤ
  split_indices : List ℕ
  split_conditions : List ℚ
  base_weights : List ℚ
deriving DecidableEq

/-- `leftChild === -1 && rightChild === -1`: node `i` is a leaf. -/
def isLeafAt (t : Tree) (i : ℕ) : Prop :=
  t.left_children.getD i 0 = -1 ∧ t.right_children.getD i 0 = -1

instance (t : Tree) (i : ℕ) : Decidable (isLeafAt t i) := by
  unfold isLeafAt; infer_instance

/-- The child index the traversal moves to from internal node `i`:
the left child iff `features[splitIdx] < splitValue` (per `jsLt`, so
equality and NaN go right).  A feature index beyond the end of the vector
reads as `undefined` in the source, which compares like NaN. -/
def nextIdx (t : Tree) (f : List JSNum) (i : ℕ) : ℤ :=
  if jsLt (f.getD (t.split_indices.getD i 0) JSNum.nan) (t.split_conditions.getD i 0) then
    t.left_children.getD i 0
  else
    t.right_children.getD i 0

/-- One iteration of `predictTree`'s `while (true)` loop at node `i`:
return a leaf weight, return 0 on an out-of-bounds child index (the
"Invalid node index" guard), or move to the next node.  An `i` that is
already out of bounds (possible only when the walk starts on an empty node
array) loops forever in the source and is modelled as a self-step. -/
def treeStep (t : Tree) (f : List JSNum) (i : ℕ) : ℚ ⊕ ℕ :=
  if i < t.left_children.length then
    if isLeafAt t i then Sum.inl (t.base_weights.getD i 0)
    else if nextIdx t f i < 0 ∨ (t.left_children.length : ℤ) ≤ nextIdx t f i then Sum.inl 0
    else Sum.inr (nextIdx t f i).toNat
  else Sum.inr i

/-- `predictTree`'s loop with explicit fuel: `none` means the loop has not
returned within `fuel` iterations. -/
def predictTreeFuel (t : Tree) (f : List JSNum) : ℕ → ℕ → Option ℚ
  | 0, _ => none
  | fuel + 1, i =>
    match treeStep t f i with
    | Sum.inl w => some w
    | Sum.inr j => predictTreeFuel t f fuel j

/-- `Predictor.predictTree(tree, features)`: walk from node 0.  A
terminating walk visits pairwise-distinct node indices (the walk is
deterministic in the node index, so a revisited index repeats forever),
hence fuel `numNodes + 1` is sufficient for every terminating walk and
`none` here means the source loops forever. -/
def predictTree (t : Tree) (f : List JSNum) : Option ℚ :=
  predictTreeFuel t f (t.left_children.length + 1) 0

/-- The walk of `predictTree` from the root returns within some number of
loop iterations. -/
def TreeTerminates (t : Tree) (f : List JSNum) : Prop :=
  ∃ fuel, (predictTreeFuel t f fuel 0).isSome = true

/-- Well-formedness exactly as the claim under scrutiny states it: the node
arrays are parallel and every non-leaf node's child indices are valid
indices of the same tree. -/
def claimWellFormedB (t : Tree) : Bool :=
  decide (t.right_children.length = t.left_children.length) &&
  decide (t.split_indices.length = t.left_children.length) &&
  decide (t.split_conditions.length = t.left_children.length) &&
  decide (t.base_weights.length = t.left_children.length) &&
  (List.range t.left_children.length).all fun i =>
    if isLeafAt t i then true
    else decide (0 ≤ t.left_children.getD i 0 ∧
      t.left_children.getD i 0 < (t.left_children.length : ℤ) ∧
      0 ≤ t.right_children.getD i 0 ∧
      t.right_children.getD i 0 < (t.left_children.length : ℤ))

/-- Strengthened well-formedness under which traversal terminates: the node
arrays are parallel and nonempty, and every non-leaf node's child indices
are valid indices strictly greater than the node's own index (the layout
XGBoost serializes). -/
def treeProgressiveB (t : Tree) : Bool :=
  decide (0 < t.left_children.length) &&
  decide (t.right_children.length = t.left_children.length) &&
  decide (t.split_indices.length = t.left_children.length) &&
  decide (t.split_conditions.length = t.left_children.length) &&
  decide (t.base_weights.length = t.left_children.length) &&
  (List.range t.left_children.length).all fun i =>
    if isLeafAt t i then true
    else decide ((i : ℤ) < t.left_children.getD i 0 ∧
      t.left_children.getD i 0 < (t.left_children.length : ℤ) ∧
      (i : ℤ) < t.right_children.getD i 0 ∧
      t.right_children.getD i 0 < (t.left_children.length : ℤ))

/-- The loaded tree ensemble: `{trees, base_score}` (`base_score` is in
log-odds space). -/
structure Model where
  trees : List Tree
  base_score : ℚ
deriving DecidableEq

/-- Every tree of the model satisfies the strengthened well-formedness. -/
def modelProgressiveB (m : Model) : Bool :=
  m.trees.all treeProgressiveB

/-- The accumulation loop of `Predictor.predict`:
`score = base_score; for tree of trees: score += predictTree(tree, features)`.
`none` when some tree's walk loops forever. -/
def rawScore (m : Model) (f : List JSNum) : Option ℚ :=
  m.trees.foldl
    (fun acc t => acc.bind fun s => (predictTree t f).map fun w => s + w)
    (some m.base_score)

/-- The companion metadata document: ordered feature names and the
recommended decision threshold. -/
structure Metadata where
  feature_names : List String
  recommended_threshold : Option ℚ
deriving DecidableEq

/-- `ModelLoader` state after `load()`: the parsed model, its metadata and
the `isLoaded` flag. -/
structure ModelLoader where
  model : Model
  metadata : Metadata
  isLoaded : Bool
deriving DecidableEq

/-- `ModelLoader.getThreshold()`: `this.metadata?.recommended_threshold || 0.70`
(the JavaScript `||` also replaces a stored 0 by the 0.70 default). -/
def ModelLoader.getThreshold (L : ModelLoader) : ℚ :=
  match L.metadata.recommended_threshold with
  | some t => if t = 0 then 7/10 else t
  | none => 7/10

/-- `1.0 / (1.0 + Math.exp(-score))`. -/
noncomputable def sigmoid (s : ℚ) : ℝ :=
  1 / (1 + Real.exp (-(s : ℝ)))

/-- `Math.round(x * 10000) / 10000` applied to a real, keeping the exact
rational result (`Math.round` rounds half toward +∞, as does `round`). -/
noncomputable def round4R (x : ℝ) : ℚ :=
  ((round (x * 10000) : ℤ) : ℚ) / 10000

/-- `Math.round(x * 10000) / 10000` on an exact rational. -/
def round4Q (x : ℚ) : ℚ :=
  ((round (x * 10000) : ℤ) : ℚ) / 10000

/-- Result of running a piece of JavaScript: a raised exception carrying a
message, an infinite loop, or a returned value. -/
inductive JSRes (α : Type) where
  | thrown : String → JSRes α
  | hangs : JSRes α
  | val : α → JSRes α
deriving DecidableEq

/-- `Predictor.predict(features)`: throw if the model is not loaded, throw
if the feature-vector length differs from the metadata's declared feature
count, otherwise sum the tree outputs onto `base_score`, apply the sigmoid
and round the probability to 4 decimals. -/
noncomputable def Predictor.predict (L : ModelLoader) (f : List JSNum) : JSRes ℚ :=
  if !L.isLoaded then JSRes.thrown "Model not loaded"
  else if f.length ≠ L.metadata.feature_names.length then
    JSRes.thrown ("Expected " ++ toString L.metadata.feature_names.length ++
      " features, got " ++ toString f.length)
  else
    match rawScore L.model f with
    | none => JSRes.hangs
    | some s => JSRes.val (round4R (sigmoid s))

/-- Risk level attached to a prediction or decision. -/
inductive Level where
  | SAFE : Level
  | SUSPICIOUS : Level
  | PHISHING : Level
  | UNKNOWN : Level
deriving DecidableEq

/-- The record returned by `Predictor.predictWithConfidence`. -/
structure PredOut where
  probability : ℚ
  confidence : ℚ
  level : Level
  threshold : ℚ
deriving DecidableEq

/-- The `level` computation inside `predictWithConfidence`: PHISHING at or
above the threshold, SUSPICIOUS within 0.20 below it, SAFE otherwise. -/
def classifyLevel (t p : ℚ) : Level :=
  if t ≤ p then Level.PHISHING
  else if t - 1/5 ≤ p then Level.SUSPICIOUS
  else Level.SAFE

/-- `Predictor.predictWithConfidence(features)`: run `predict`, classify the
probability against the loader's threshold (`classifyLevel`) and report
confidence toward the called verdict (`1 - p` for SAFE, `p` otherwise),
rounded to 4 decimals. -/
noncomputable def Predictor.predictWithConfidence (L : ModelLoader) (f : List JSNum) :
    JSRes PredOut :=
  match Predictor.predict L f with
  | JSRes.thrown m => JSRes.thrown m
  | JSRes.hangs => JSRes.hangs
  | JSRes.val p =>
    JSRes.val ⟨p,
      round4Q (if classifyLevel (ModelLoader.getThreshold L) p = Level.SAFE
        then 1 - p else p),
      classifyLevel (ModelLoader.getThreshold L) p,
      ModelLoader.getThreshold L⟩

/-- Declarative big-step reading of one tree walk, as the specification
words it: a node with both child indices -1 yields its leaf weight; an
internal node routes by `features[split_index] < split_condition` (false —
including equality and NaN — goes right); a walk that computes a child
index outside the node arrays yields 0. -/
inductive WalkEval (t : Tree) (f : List JSNum) : ℕ → ℚ → Prop where
  | leaf (i : ℕ) (hi : i < t.left_children.length) (hl : isLeafAt t i) :
      WalkEval t f i (t.base_weights.getD i 0)
  | step (i : ℕ) (w : ℚ) (hi : i < t.left_children.length) (hl : ¬ isLeafAt t i)
      (hin : ¬ (nextIdx t f i < 0 ∨ (t.left_children.length : ℤ) ≤ nextIdx t f i))
      (hrec : WalkEval t f (nextIdx t f i).toNat w) : WalkEval t f i w
  | oob (i : ℕ) (hi : i < t.left_children.length) (hl : ¬ isLeafAt t i)
      (hout : nextIdx t f i < 0 ∨ (t.left_children.length : ℤ) ≤ nextIdx t f i) :
      WalkEval t f i 0

/-- Action decided for a URL. -/
inductive Action where
  | ALLOW : Action
  | WARN : Action
  | BLOCK : Action
deriving DecidableEq

/-- The named feature dictionary produced by the feature extractor; the
engine treats it opaquely and stores it in the decision. -/
def FeatureMap : Type := List (String × ℚ)

instance : DecidableEq FeatureMap := by
  unfold FeatureMap; infer_instance

/-- The decision record assembled by `DecisionEngine.createDecision`. -/
structure Decision where
  url : String
  action : Action
  level : Level
  probability : Option ℚ
  confidence : ℚ
  reason : String
  features : Option FeatureMap
  cached : Bool
  timestamp : ℕ
  latency : ℕ
  error : Option String
deriving DecidableEq

/-- `DecisionEngine.createDecision(params)`: the `|| null` / `|| false`
defaulting of the source is carried by the `Option`/`Bool` types;
`timestamp` is `Date.now()` and latency measurement is modelled as 0. -/
def createDecision (url : String) (action : Action) (level : Level) (reason : String)
    (probability : Option ℚ) (confidence : ℚ) (features : Option FeatureMap)
    (cached : Bool) (timestamp : ℕ) (latency : ℕ) (error : Option String) : Decision :=
  ⟨url, action, level, probability, confidence, reason, features, cached, timestamp,
    latency, error⟩

/-- The `ThresholdManager` configuration values used by `getAction`. -/
structure ThresholdConfig where
  blockThreshold : ℚ
  warnThreshold : ℚ
  popularDomainThreshold : ℚ
deriving DecidableEq

/-- The constructor defaults of `ThresholdManager` (`balanced` profile). -/
def defaultThresholds : ThresholdConfig :=
  ⟨7/10, 1/2, 9/10⟩

/-- `ThresholdManager.getAction(probability, isPopularDomain)`: popular
domains below `popularDomainThreshold` are forced to ALLOW; otherwise BLOCK
at or above `blockThreshold`, WARN at or above `warnThreshold`, else
ALLOW. -/
def ThresholdManager.getAction (cfg : ThresholdConfig) (p : ℚ) (isPop : Bool) : Action :=
  if isPop ∧ p < cfg.popularDomainThreshold then Action.ALLOW
  else if cfg.blockThreshold ≤ p then Action.BLOCK
  else if cfg.warnThreshold ≤ p then Action.WARN
  else Action.ALLOW

/-- Components of a parsed `http(s)` URL as exposed by the platform's `URL`
object and used by the cache normalizer. -/
structure ParsedURL where
  protocol : String
  hostname : String
  pathname : String
  search : String
deriving DecidableEq

/-- `s.startsWith p`, computed on the underlying character lists so that it
evaluates by kernel reduction. -/
def strStartsWith (s p : String) : Bool :=
  p.data.isPrefixOf s.data

/-- `s.endsWith p`, computed on the underlying character lists. -/
def strEndsWith (s p : String) : Bool :=
  p.data.isSuffixOf s.data

/-- `host.split(sep)` on character lists (JavaScript `String.split` with a
single-character separator: no empty-segment suppression). -/
def splitChar (sep : Char) : List Char → List (List Char)
  | [] => [[]]
  | c :: rest =>
    match splitChar sep rest with
    | [] => [[c]]
    | g :: gs => if c = sep then [] :: g :: gs else (c :: g) :: gs

/-- `hostname.split('.')`. -/
def splitDots (host : String) : List String :=
  (splitChar '.' host.data).map String.mk

/-- `parts.join('.')`. -/
def joinDots : List String → String
  | [] => ""
  | [p] => p
  | p :: rest => p ++ "." ++ joinDots rest

/-- Model of the platform's `new URL(u)` for plain `http(s)` URLs (no
userinfo): splits off the scheme, takes the host up to the first `/`, `?`,
`#` or `:` (the port is dropped), the path up to `?` or `#` (default `/`),
the query up to `#`; the fragment is dropped.  `none` models the
constructor throwing (no http/https scheme, or an empty host).  The
platform also lowercases the hostname; hostnames in this development are
already lowercase, so that step is omitted. -/
def parseURL (url : String) : Option ParsedURL :=
  if strStartsWith url "http://" then parseURLBody "http:" (url.data.drop 7)
  else if strStartsWith url "https://" then parseURLBody "https:" (url.data.drop 8)
  else none
where
  parseURLBody (proto : String) (rest : List Char) : Option ParsedURL :=
    let host := rest.takeWhile fun ch => ch != '/' && ch != '?' && ch != '#' && ch != ':'
    if host.isEmpty then none
    else
      let after := (rest.drop host.length).dropWhile fun ch => ch == ':' || ch.isDigit
      let path := after.takeWhile fun ch => ch != '?' && ch != '#'
      let qf := after.drop path.length
      let query := qf.takeWhile fun ch => ch != '#'
      some ⟨proto, String.mk host, if path.isEmpty then "/" else String.mk path,
        String.mk query⟩

/-- `new URL(url).hostname`, `none` when the constructor throws. -/
def jsHostname (url : String) : Option String :=
  (parseURL url).map ParsedURL.hostname

/-- `PredictionCache.normalizeURL(url)`:
`protocol + "//" + hostname + pathname + search`, the raw string when
parsing throws. -/
def normalizeURL (url : String) : String :=
  match parseURL url with
  | some u => u.protocol ++ "//" ++ u.hostname ++ u.pathname ++ u.search
  | none => url

/-- One cache slot: the stored decision and its insertion time. -/
structure CacheEntry where
  prediction : Decision
  timestamp : ℕ
deriving DecidableEq

/-- `Map.get`: first binding of the key, in insertion order. -/
def mapGet {β : Type} : List (String × β) → String → Option β
  | [], _ => none
  | e :: rest, k => if e.1 = k then some e.2 else mapGet rest k

/-- `Map.delete`: remove the key's binding, keeping the order of the rest. -/
def mapDelete {β : Type} : List (String × β) → String → List (String × β)
  | [], _ => []
  | e :: rest, k => if e.1 = k then mapDelete rest k else e :: mapDelete rest k

/-- `Map.set`: update an existing binding in place, else append at the end
(JavaScript `Map` keeps the original position of an updated key and
iterates in insertion order). -/
def mapSet {β : Type} (l : List (String × β)) (k : String) (v : β) : List (String × β) :=
  if (mapGet l k).isSome then l.map fun e => if e.1 = k then (k, v) else e
  else l ++ [(k, v)]

/-- `PredictionCache` state: the ordered entry map (head = least recently
touched), capacity, TTL in milliseconds and the hit/miss counters.  The
constructor defaults are `maxSize = 1000`, `ttl = 3600000`. -/
structure PredictionCache where
  entries : List (String × CacheEntry)
  maxSize : ℕ
  ttl : ℕ
  hits : ℕ
  misses : ℕ
deriving DecidableEq

/-- A `PredictionCache` as constructed with the default arguments. -/
def emptyCache : PredictionCache :=
  ⟨[], 1000, 3600000, 0, 0⟩

/-- `PredictionCache.get(url)`: miss if the normalized key is absent; if
the entry is older than the TTL, delete it and miss; otherwise move the
entry to the most-recently-used end and return its decision. -/
def PredictionCache.get (c : PredictionCache) (now : ℕ) (url : String) :
    Option Decision × PredictionCache :=
  let k := normalizeURL url
  match mapGet c.entries k with
  | none => (none, { c with misses := c.misses + 1 })
  | some e =>
    if c.ttl < now - e.timestamp then
      (none, { c with entries := mapDelete c.entries k, misses := c.misses + 1 })
    else
      (some e.prediction,
        { c with entries := mapDelete c.entries k ++ [(k, e)], hits := c.hits + 1 })

/-- `PredictionCache.set(url, prediction)`: when at capacity, evict the
first (least-recently-touched) key, then insert the normalized key at the
most-recently-used end.  On an empty map at capacity (`maxSize = 0`) the
source deletes `undefined`, a no-op. -/
def PredictionCache.set (c : PredictionCache) (now : ℕ) (url : String) (d : Decision) :
    PredictionCache :=
  let k := normalizeURL url
  let base :=
    if c.maxSize ≤ c.entries.length then
      match c.entries with
      | [] => c.entries
      | e0 :: _ => mapDelete c.entries e0.1
    else c.entries
  { c with entries := mapSet base k ⟨d, now⟩ }

/-- `Whitelist.extractDomain(url)`: prepend `http://` when no scheme is
present, then keep the last two labels of the hostname (the registrable
domain) or the whole hostname when it has fewer than two labels; `none`
when URL parsing throws. -/
def Whitelist.extractDomain (url : String) : Option String :=
  let u := if strStartsWith url "http://" || strStartsWith url "https://" then url
    else "http://" ++ url
  match jsHostname u with
  | none => none
  | some host =>
    let parts := splitDots host
    if 2 ≤ parts.length then
      some (joinDots (parts.drop (parts.length - 2)))
    else some host

/-- `Whitelist.isWhitelisted(url)`: extract the registrable domain and
check it, and every suffix obtained by dropping leading labels, against the
stored set. -/
def Whitelist.isWhitelisted (domains : List String) (url : String) : Bool :=
  match Whitelist.extractDomain url with
  | none => false
  | some d =>
    if d ∈ domains then true
    else
      let parts := splitDots d
      (List.range parts.length).any fun i =>
        decide (1 ≤ i) && decide (joinDots (parts.drop i) ∈ domains)

/-- `Whitelist.add(url)`: store the registrable-domain projection of the
argument (a set insertion); `false` when no domain could be extracted. -/
def Whitelist.add (domains : List String) (url : String) : List String × Bool :=
  match Whitelist.extractDomain url with
  | none => (domains, false)
  | some d => (if d ∈ domains then domains else domains ++ [d], true)

/-- The engine's hardcoded popular-domains list. -/
def popularDomains : List String :=
  ["google.com", "youtube.com", "facebook.com", "twitter.com", "instagram.com",
   "linkedin.com", "reddit.com", "amazon.com", "wikipedia.org", "netflix.com",
   "microsoft.com", "apple.com", "github.com", "stackoverflow.com", "medium.com"]

/-- `DecisionEngine.isPopularDomain(url)`: hostname equals a popular domain
or ends in `"." + domain`; `false` when URL parsing throws. -/
def isPopularDomain (url : String) : Bool :=
  match jsHostname url with
  | none => false
  | some h => popularDomains.any fun d => h = d || strEndsWith h ("." ++ d)

/-- The collaborators injected into `DecisionEngine`'s constructor: the
feature extractor's two methods and the predictor, each an arbitrary
fallible function. -/
structure Env where
  extractFeatures : String → JSRes (Option FeatureMap)
  featuresToArray : FeatureMap → JSRes (List JSNum)
  predictWithConfidence : List JSNum → JSRes PredOut

/-- The engine-owned mutable state threaded through `decide`. -/
structure EngineState where
  cache : PredictionCache
  whitelist : List String
  thresholds : ThresholdConfig

/-- The `try` block of `DecisionEngine.decide(url)` (steps 1–7): whitelist
short-circuit, cache lookup, feature extraction, prediction, threshold
policy, decision assembly, cache insertion.  Exceptions from the injected
collaborators (and the engine's own throw on `null` features) escape as
`thrown`; state mutations made before the throw persist. -/
def DecisionEngine.tryDecide (env : Env) (st : EngineState) (url : String) (now : ℕ) :
    JSRes Decision × EngineState :=
  if Whitelist.isWhitelisted st.whitelist url then
    (JSRes.val (createDecision url Action.ALLOW Level.SAFE "whitelisted"
      (some 0) 1 none false now 0 none), st)
  else
    match PredictionCache.get st.cache now url with
    | (some cd, cache') =>
      (JSRes.val { cd with cached := true, timestamp := now, latency := 0 },
        { st with cache := cache' })
    | (none, cache') =>
      let st1 := { st with cache := cache' }
      match env.extractFeatures url with
      | JSRes.thrown m => (JSRes.thrown m, st1)
      | JSRes.hangs => (JSRes.hangs, st1)
      | JSRes.val none => (JSRes.thrown "Failed to extract features", st1)
      | JSRes.val (some fo) =>
        match env.featuresToArray fo with
        | JSRes.thrown m => (JSRes.thrown m, st1)
        | JSRes.hangs => (JSRes.hangs, st1)
        | JSRes.val arr =>
          match env.predictWithConfidence arr with
          | JSRes.thrown m => (JSRes.thrown m, st1)
          | JSRes.hangs => (JSRes.hangs, st1)
          | JSRes.val pr =>
            let isPop := isPopularDomain url
            let act := ThresholdManager.getAction st.thresholds pr.probability isPop
            let d := createDecision url act pr.level
              (if isPop then "popular_domain_check" else "ml_prediction")
              (some pr.probability) pr.confidence (some fo) false now 0 none
            (JSRes.val d, { st1 with cache := PredictionCache.set st1.cache now url d })

/-- `DecisionEngine.decide(url)`: the try block wrapped in the fail-open
`catch` that converts any exception into an ALLOW / UNKNOWN / "error"
decision carrying the error message. -/
def DecisionEngine.decide (env : Env) (st : EngineState) (url : String) (now : ℕ) :
    JSRes Decision × EngineState :=
  match DecisionEngine.tryDecide env st url now with
  | (JSRes.thrown m, st') =>
    (JSRes.val (createDecision url Action.ALLOW Level.UNKNOWN "error"
      none 0 none false now 0 (some m)), st')
  | r => r

/-- Loader with no trees and base score 0 (a concrete instance used in
witnesses). -/
def loader0 : ModelLoader :=
  ⟨⟨[], 0⟩, ⟨[], none⟩, true⟩

/-- The probability `loader0` predicts: the rounded sigmoid of 0. -/
noncomputable def prob0 : ℚ :=
  round4R (sigmoid 0)

/-- Loader with no trees and base score 1: its raw score is exactly 1. -/
def loader1 : ModelLoader :=
  ⟨⟨[], 1⟩, ⟨[], none⟩, true⟩

/-- The probability `loader1` predicts: the rounded sigmoid of 1. -/
noncomputable def prob1 : ℚ :=
  round4R (sigmoid 1)

/-- A single-leaf tree of weight 1/2. -/
def leafTree : Tree :=
  ⟨[-1], [-1], [0], [0], [1/2]⟩

/-- Loader holding the single-leaf tree, declaring one feature. -/
def leafLoader : ModelLoader :=
  ⟨⟨[leafTree], 0⟩, ⟨["f0"], none⟩, true⟩

/-- A one-node tree whose node 0 is internal with both children 0: every
child index is a valid index of the tree, yet traversal cycles forever. -/
def cycTree : Tree :=
  ⟨[0], [0], [0], [0], [0]⟩

/-- Loader holding the cyclic tree, declaring one feature. -/
def cycLoader : ModelLoader :=
  ⟨⟨[cycTree], 0⟩, ⟨["f0"], none⟩, true⟩

/-- An environment whose feature extractor always throws. -/
def envBoom : Env :=
  ⟨fun _ => JSRes.thrown "boom", fun _ => JSRes.val [], fun _ => JSRes.val ⟨0, 0, Level.SAFE, 7/10⟩⟩

/-- Engine state with an empty cache and empty whitelist. -/
def st0 : EngineState :=
  ⟨emptyCache, [], defaultThresholds⟩

/-- Engine state whose whitelist holds `example.com`. -/
def stWL : EngineState :=
  ⟨emptyCache, ["example.com"], defaultThresholds⟩

/-- A concrete decision used as cache payload in witnesses. -/
def dWit : Decision :=
  createDecision "https://a.com/" Action.ALLOW Level.SAFE "test" (some 0) 1 none false 0 0 none

/-- A concrete cache entry holding `dWit`, inserted at time 0. -/
def eWit : CacheEntry :=
  ⟨dWit, 0⟩

/-- A two-entry cache at capacity 2 with TTL 100: `https://w.com/` is the
least-recently-touched entry, `https://u.com/` the most recent. -/
def cacheFull : PredictionCache :=
  ⟨[("https://w.com/", eWit), ("https://u.com/", eWit)], 2, 100, 0, 0⟩

/-- The prediction record `loader0` produces: probability 1/2 (sigmoid of
score 0), level SUSPICIOUS at the default threshold 0.70, confidence 1/2. -/
def outHalf : PredOut :=
  ⟨1/2, 1/2, Level.SUSPICIOUS, 7/10⟩


lemma mapGet_append_of_none {β : Type} {l₁ : List (String × β)} {k : String}
    (l₂ : List (String × β)) (h : mapGet l₁ k = none) :
    mapGet (l₁ ++ l₂) k = mapGet l₂ k := by
  induction l₁ with
  | nil => simp
  | cons e rest ih =>
    by_cases he : e.1 = k
    · simp [mapGet, he] at h
    · simp only [mapGet, he, if_false, List.cons_append] at h ⊢
      exact ih h

lemma mapGet_append_of_some {β : Type} {l₁ : List (String × β)} {k : String} {v : β}
    (l₂ : List (String × β)) (h : mapGet l₁ k = some v) :
    mapGet (l₁ ++ l₂) k = some v := by
  induction l₁ with
  | nil => simp [mapGet] at h
  | cons e rest ih =>
    by_cases he : e.1 = k
    · simp only [mapGet, he, if_true, List.cons_append] at h ⊢
      exact h
    · simp only [mapGet, he, if_false, List.cons_append] at h ⊢
      exact ih h

lemma mapGet_mapDelete_self {β : Type} (l : List (String × β)) (k : String) :
    mapGet (mapDelete l k) k = none := by
  induction l with
  | nil => rfl
  | cons e rest ih =>
    by_cases he : e.1 = k
    · simpa [mapDelete, he] using ih
    · simpa [mapDelete, mapGet, he] using ih

lemma mapGet_mapDelete_ne {β : Type} {k' k : String} (l : List (String × β))
    (h : k' ≠ k) : mapGet (mapDelete l k) k' = mapGet l k' := by
  induction l with
  | nil => rfl
  | cons e rest ih =>
    have hkk : ¬ (k = k') := fun hh => h hh.symm
    by_cases he : e.1 = k
    · simpa [mapDelete, mapGet, he, hkk] using ih
    · by_cases he' : e.1 = k'
      · simp [mapDelete, mapGet, he, he', h]
      · simpa [mapDelete, mapGet, he, he'] using ih

lemma mapDelete_of_none {β : Type} {l : List (String × β)} {k : String}
    (h : mapGet l k = none) : mapDelete l k = l := by
  induction l with
  | nil => rfl
  | cons e rest ih =>
    by_cases he : e.1 = k
    · simp [mapGet, he] at h
    · simp only [mapGet, he, if_false] at h
      simp [mapDelete, he, ih h]

lemma mapGet_none_of_not_mem {β : Type} {l : List (String × β)} {k : String}
    (h : k ∉ l.map Prod.fst) : mapGet l k = none := by
  induction l with
  | nil => rfl
  | cons e rest ih =>
    simp only [List.map_cons, List.mem_cons] at h
    push_neg at h
    have : e.1 ≠ k := fun hh => h.1 hh.symm
    simp [mapGet, this, ih h.2]

lemma length_mapDelete_of_some {β : Type} {l : List (String × β)} {k : String} {v : β}
    (hnd : (l.map Prod.fst).Nodup) (h : mapGet l k = some v) :
    (mapDelete l k).length + 1 = l.length := by
  induction l with
  | nil => simp [mapGet] at h
  | cons e rest ih =>
    simp only [List.map_cons, List.nodup_cons] at hnd
    by_cases he : e.1 = k
    · have hnone : mapGet rest k = none := by
        apply mapGet_none_of_not_mem
        rw [← he]; exact hnd.1
      simp [mapDelete, he, mapDelete_of_none hnone]
    · simp only [mapGet, he, if_false] at h
      have h2 := ih hnd.2 h
      simp only [mapDelete, he, if_false, List.length_cons]
      omega

lemma mem_mapDelete_imp {β : Type} {l : List (String × β)} {k : String}
    {p : String × β} (h : p ∈ mapDelete l k) : p ∈ l ∧ p.1 ≠ k := by
  induction l with
  | nil => simp [mapDelete] at h
  | cons e rest ih =>
    by_cases he : e.1 = k
    · simp only [mapDelete, he, if_true] at h
      have := ih h
      exact ⟨List.mem_cons_of_mem _ this.1, this.2⟩
    · simp only [mapDelete, he, if_false, List.mem_cons] at h
      rcases h with h | h
      · exact ⟨by simp [h], by rw [h]; exact he⟩
      · have := ih h
        exact ⟨List.mem_cons_of_mem _ this.1, this.2⟩

lemma mapGet_map_replace {β : Type} {k' k : String} (l : List (String × β)) (v : β)
    (h : k' ≠ k) :
    mapGet (l.map fun e => if e.1 = k then (k, v) else e) k' = mapGet l k' := by
  induction l with
  | nil => rfl
  | cons e rest ih =>
    by_cases he : e.1 = k
    · have : k ≠ k' := fun hh => h hh.symm
      simp [mapGet, he, this, ih]
    · simp only [List.map_cons, if_neg he]
      by_cases he' : e.1 = k'
      · simp [mapGet, he']
      · simp [mapGet, he', ih]

lemma mapGet_mapSet_self {β : Type} (l : List (String × β)) (k : String) (v : β) :
    mapGet (mapSet l k v) k = some v := by
  unfold mapSet
  by_cases h : (mapGet l k).isSome
  · rw [if_pos h]
    induction l with
    | nil => simp [mapGet] at h
    | cons e rest ih =>
      by_cases he : e.1 = k
      · simp [mapGet, he]
      · simp only [mapGet, he, if_false] at h
        simp [mapGet, he, ih h]
  · rw [if_neg h]
    rw [mapGet_append_of_none _ (by simpa using h)]
    simp [mapGet]

lemma mapGet_mapSet_ne {β : Type} {k' k : String} (l : List (String × β)) (v : β)
    (h : k' ≠ k) : mapGet (mapSet l k v) k' = mapGet l k' := by
  unfold mapSet
  by_cases hs : (mapGet l k).isSome
  · rw [if_pos hs]
    exact mapGet_map_replace l v h
  · rw [if_neg hs]
    cases hg : mapGet l k' with
    | none =>
      rw [mapGet_append_of_none _ hg]
      have hkk : ¬ (k = k') := fun hh => h hh.symm
      simp [mapGet, hkk]
    | some w => exact mapGet_append_of_some _ hg

lemma mapSet_of_none {β : Type} {l : List (String × β)} {k : String} (v : β)
    (h : mapGet l k = none) : mapSet l k v = l ++ [(k, v)] := by
  unfold mapSet
  simp [h]

/-- Claim C7: immediately after `set(u, d)`, `get(u)` returns `d`; and once
more than `ttl` milliseconds have elapsed since the `set`, `get(u)` returns
`null` and deletes the expired entry from the cache. -/
theorem cache_roundtrip_ttl (c : PredictionCache) (u : String) (d : Decision)
    (now now2 : ℕ) :
    (PredictionCache.get (PredictionCache.set c now u d) now u).1 = some d ∧
    (c.ttl < now2 - now →
      (PredictionCache.get (PredictionCache.set c now u d) now2 u).1 = none ∧
      mapGet (PredictionCache.get (PredictionCache.set c now u d) now2 u).2.entries
        (normalizeURL u) = none) := by
  have hg : mapGet (PredictionCache.set c now u d).entries (normalizeURL u)
      = some ⟨d, now⟩ := by
    simp only [PredictionCache.set]
    exact mapGet_mapSet_self _ _ _
  have httl : (PredictionCache.set c now u d).ttl = c.ttl := rfl
  constructor
  · simp only [PredictionCache.get, hg, httl]
    simp
  · intro h
    simp only [PredictionCache.get, hg, httl]
    rw [if_pos h]
    exact ⟨rfl, mapGet_mapDelete_self _ _⟩

/-- Witness for C7 at a concrete cache, URL and clock. -/
theorem cache_roundtrip_ttl_witness :
    emptyCache.ttl < 3600001 - 0 ∧
    ((PredictionCache.get (PredictionCache.set emptyCache 0 "https://a.com/" dWit)
        3600001 "https://a.com/").1 = none ∧
      mapGet (PredictionCache.get (PredictionCache.set emptyCache 0 "https://a.com/" dWit)
        3600001 "https://a.com/").2.entries (normalizeURL "https://a.com/") = none) :=
  ⟨by decide,
    (cache_roundtrip_ttl emptyCache "https://a.com/" dWit 0 3600001).2 (by decide)⟩

/-- Claim C8: on a full cache, `set` of a fresh normalized URL evicts
exactly the least-recently-touched (head) entry; a hit via `get` moves the
touched entry to the most-recently-used end, so it survives the eviction
caused by the immediately following insertion. -/
theorem cache_lru_eviction (c : PredictionCache) (now now2 : ℕ) (u v : String)
    (dv : Decision) (e : CacheEntry)
    (hnd : (c.entries.map Prod.fst).Nodup)
    (hfull : c.entries.length = c.maxSize)
    (hsize : 2 ≤ c.maxSize)
    (hget : mapGet c.entries (normalizeURL u) = some e)
    (hlive : now - e.timestamp ≤ c.ttl)
    (hfresh : mapGet c.entries (normalizeURL v) = none) :
    (PredictionCache.set c now2 v dv).entries
      = c.entries.tail ++ [(normalizeURL v, ⟨dv, now2⟩)] ∧
    (PredictionCache.get c now u).1 = some e.prediction ∧
    (PredictionCache.get c now u).2.entries
      = mapDelete c.entries (normalizeURL u) ++ [(normalizeURL u, e)] ∧
    mapGet (PredictionCache.set (PredictionCache.get c now u).2 now2 v dv).entries
      (normalizeURL u) = some e := by
  have hne_uv : normalizeURL v ≠ normalizeURL u := by
    intro hh
    rw [hh, hget] at hfresh
    exact Option.noConfusion hfresh
  have hA : (PredictionCache.set c now2 v dv).entries
      = c.entries.tail ++ [(normalizeURL v, ⟨dv, now2⟩)] := by
    rcases hcs : c.entries with _ | ⟨e0, tl⟩
    · rw [hcs] at hfull
      simp at hfull
      omega
    · rw [hcs] at hnd hfresh hfull
      simp only [List.map_cons, List.nodup_cons] at hnd
      have h0 : mapGet tl e0.1 = none := mapGet_none_of_not_mem hnd.1
      have hfv : mapGet tl (normalizeURL v) = none := by
        by_cases h01 : e0.1 = normalizeURL v
        · simp [mapGet, h01] at hfresh
        · simpa [mapGet, h01] using hfresh
      have hdel : mapDelete (e0 :: tl) e0.1 = tl := by
        simp [mapDelete, mapDelete_of_none h0]
      simp only [PredictionCache.set, hcs]
      rw [if_pos (le_of_eq hfull.symm)]
      rw [hdel, mapSet_of_none _ hfv]
      simp
  refine ⟨hA, ?_⟩
  have hB : PredictionCache.get c now u
      = (some e.prediction,
        ⟨mapDelete c.entries (normalizeURL u) ++ [(normalizeURL u, e)],
          c.maxSize, c.ttl, c.hits + 1, c.misses⟩) := by
    simp only [PredictionCache.get, hget]
    rw [if_neg (by omega)]
  have hB2 : (PredictionCache.get c now u).2
      = ⟨mapDelete c.entries (normalizeURL u) ++ [(normalizeURL u, e)],
          c.maxSize, c.ttl, c.hits + 1, c.misses⟩ := by
    rw [hB]
  refine ⟨by rw [hB], by rw [hB2], ?_⟩
  rw [hB2]
  have hDlen : (mapDelete c.entries (normalizeURL u)).length + 1 = c.entries.length :=
    length_mapDelete_of_some hnd hget
  rcases hDs : mapDelete c.entries (normalizeURL u) with _ | ⟨d0, D'⟩
  · rw [hDs] at hDlen
    simp at hDlen
    omega
  · have hd0 : d0.1 ≠ normalizeURL u := by
      have hmem : d0 ∈ mapDelete c.entries (normalizeURL u) := by rw [hDs]; simp
      exact (mem_mapDelete_imp hmem).2
    have hDku : mapGet (D' ++ [(normalizeURL u, e)]) (normalizeURL u) = some e := by
      have hnone : mapGet (mapDelete c.entries (normalizeURL u)) (normalizeURL u) = none :=
        mapGet_mapDelete_self _ _
      rw [hDs] at hnone
      simp only [mapGet, hd0, if_false] at hnone
      rw [mapGet_append_of_none _ hnone]
      simp [mapGet]
    have hle : c.maxSize ≤ (d0 :: (D' ++ [(normalizeURL u, e)])).length := by
      rw [hDs] at hDlen
      simp only [List.length_cons] at hDlen
      simp only [List.length_cons, List.length_append, List.length_singleton]
      omega
    simp only [PredictionCache.set, List.cons_append]
    rw [if_pos hle]
    rw [mapGet_mapSet_ne _ _ (fun hh => hne_uv hh.symm)]
    rw [mapGet_mapDelete_ne _ (fun hh => hd0 hh.symm)]
    simp only [mapGet, hd0, if_false]
    exact hDku

/-- Witness for C8 at a concrete two-entry cache. -/
theorem cache_lru_eviction_witness :
    (cacheFull.entries.map Prod.fst).Nodup ∧
    mapGet cacheFull.entries (normalizeURL "https://u.com/") = some eWit ∧
    mapGet cacheFull.entries (normalizeURL "https://v.com/") = none ∧
    ((PredictionCache.set cacheFull 5 "https://v.com/" dWit).entries
        = cacheFull.entries.tail ++ [(normalizeURL "https://v.com/", ⟨dWit, 5⟩)] ∧
      (PredictionCache.get cacheFull 0 "https://u.com/").1 = some eWit.prediction ∧
      (PredictionCache.get cacheFull 0 "https://u.com/").2.entries
        = mapDelete cacheFull.entries (normalizeURL "https://u.com/")
            ++ [(normalizeURL "https://u.com/", eWit)] ∧
      mapGet (PredictionCache.set (PredictionCache.get cacheFull 0 "https://u.com/").2
          5 "https://v.com/" dWit).entries (normalizeURL "https://u.com/") = some eWit) :=
  ⟨by decide, by decide, by decide,
    cache_lru_eviction cacheFull 0 5 "https://u.com/" "https://v.com/" dWit eWit
      (by decide) (by decide) (by decide) (by decide) (by decide) (by decide)⟩

/-- Claim C3 counterexample: `add("b.example.com")` stores the
registrable-domain projection `example.com`, so `isWhitelisted("https://example.com")`
afterwards returns `true`, not `false` as claimed. -/
theorem whitelist_direction_cex :
    (Whitelist.add [] "b.example.com").1 = ["example.com"] ∧
    Whitelist.isWhitelisted (Whitelist.add [] "b.example.com").1 "https://example.com"
      = true :=
  ⟨by decide, by decide⟩

/-- Claim C3 as amended: after `add("example.com")`, any URL under
`example.com` is whitelisted; and after `add("b.example.com")` on an empty
whitelist, `isWhitelisted("https://example.com")` returns `true`, because
`add` stores the registrable-domain projection (`example.com`) of its
argument rather than the raw input. -/
theorem whitelist_projection_matching :
    (∀ ds : List String,
      Whitelist.isWhitelisted (Whitelist.add ds "example.com").1
        "https://a.b.example.com/x" = true) ∧
    Whitelist.isWhitelisted (Whitelist.add [] "b.example.com").1 "https://example.com"
      = true := by
  constructor
  · intro ds
    have h1 : Whitelist.extractDomain "example.com" = some "example.com" := by decide
    have h2 : Whitelist.extractDomain "https://a.b.example.com/x" = some "example.com" := by
      decide
    simp only [Whitelist.add, h1]
    simp only [Whitelist.isWhitelisted, h2]
    by_cases hc : "example.com" ∈ ds
    · simp [hc]
    · simp [hc]
  · decide

/-- Claim C4: with `warnThreshold ≤ blockThreshold`, `getAction(p, false)`
is BLOCK iff `p ≥ blockThreshold` (the boundary is inclusive), WARN iff
`warnThreshold ≤ p < blockThreshold`, ALLOW iff `p < warnThreshold`; and
`getAction(p, true)` is ALLOW whenever `p < popularDomainThreshold`, even
when `p ≥ blockThreshold`, and falls back to the non-popular comparison
otherwise. -/
theorem getAction_threshold_spec (cfg : ThresholdConfig) (p : ℚ)
    (h : cfg.warnThreshold ≤ cfg.blockThreshold) :
    (ThresholdManager.getAction cfg p false = Action.BLOCK ↔ cfg.blockThreshold ≤ p) ∧
    (ThresholdManager.getAction cfg p false = Action.WARN ↔
      cfg.warnThreshold ≤ p ∧ p < cfg.blockThreshold) ∧
    (ThresholdManager.getAction cfg p false = Action.ALLOW ↔ p < cfg.warnThreshold) ∧
    (p < cfg.popularDomainThreshold →
      ThresholdManager.getAction cfg p true = Action.ALLOW) ∧
    (cfg.popularDomainThreshold ≤ p →
      ThresholdManager.getAction cfg p true = ThresholdManager.getAction cfg p false) := by
  have hfalse : ThresholdManager.getAction cfg p false =
      (if cfg.blockThreshold ≤ p then Action.BLOCK
       else if cfg.warnThreshold ≤ p then Action.WARN else Action.ALLOW) := by
    simp [ThresholdManager.getAction]
  refine ⟨?_, ?_, ?_, ?_, ?_⟩
  · rw [hfalse]
    by_cases h1 : cfg.blockThreshold ≤ p
    · simp [h1]
    · by_cases h2 : cfg.warnThreshold ≤ p <;> simp [h1, h2]
  · rw [hfalse]
    by_cases h1 : cfg.blockThreshold ≤ p
    · simp only [if_pos h1]
      constructor
      · intro hh; exact absurd hh (by decide)
      · rintro ⟨-, h3⟩; exact absurd h1 (not_le.mpr h3)
    · by_cases h2 : cfg.warnThreshold ≤ p
      · simp [h1, h2, lt_of_not_le h1]
      · simp only [if_neg h1, if_neg h2]
        constructor
        · intro hh; exact absurd hh (by decide)
        · rintro ⟨h3, -⟩; exact absurd h3 h2
  · rw [hfalse]
    by_cases h1 : cfg.blockThreshold ≤ p
    · simp only [if_pos h1]
      constructor
      · intro hh; exact absurd hh (by decide)
      · intro h3; exact absurd (lt_of_lt_of_le h3 h) (not_lt.mpr h1)
    · by_cases h2 : cfg.warnThreshold ≤ p
      · simp only [if_neg h1, if_pos h2]
        constructor
        · intro hh; exact absurd hh (by decide)
        · intro h3; exact absurd h2 (not_le.mpr h3)
      · simp [h1, h2, lt_of_not_le h2]
  · intro hp
    simp [ThresholdManager.getAction, hp]
  · intro hp
    have : ¬ p < cfg.popularDomainThreshold := not_lt.mpr hp
    simp [ThresholdManager.getAction, this]

/-- Witness for C4 at the default configuration and the block boundary. -/
theorem getAction_threshold_spec_witness :
    defaultThresholds.warnThreshold ≤ defaultThresholds.blockThreshold ∧
    ((ThresholdManager.getAction defaultThresholds (7/10) false = Action.BLOCK ↔
        defaultThresholds.blockThreshold ≤ 7/10) ∧
      (ThresholdManager.getAction defaultThresholds (7/10) false = Action.WARN ↔
        defaultThresholds.warnThreshold ≤ 7/10 ∧ (7/10 : ℚ) < defaultThresholds.blockThreshold) ∧
      (ThresholdManager.getAction defaultThresholds (7/10) false = Action.ALLOW ↔
        (7/10 : ℚ) < defaultThresholds.warnThreshold) ∧
      ((7/10 : ℚ) < defaultThresholds.popularDomainThreshold →
        ThresholdManager.getAction defaultThresholds (7/10) true = Action.ALLOW) ∧
      (defaultThresholds.popularDomainThreshold ≤ 7/10 →
        ThresholdManager.getAction defaultThresholds (7/10) true
          = ThresholdManager.getAction defaultThresholds (7/10) false)) :=
  ⟨by norm_num [defaultThresholds],
    getAction_threshold_spec defaultThresholds (7/10) (by norm_num [defaultThresholds])⟩

/-- Claim C1: `decide(url)` never returns a raised exception to its caller,
and whenever the try block (steps 1–7) throws, `decide` returns the
fail-open decision: action ALLOW, level UNKNOWN, reason "error", with the
error message attached and probability `null` — never BLOCK. -/
theorem decide_fail_open (env : Env) (st : EngineState) (url : String) (now : ℕ) :
    (∀ m, (DecisionEngine.decide env st url now).1 ≠ JSRes.thrown m) ∧
    (∀ m, (DecisionEngine.tryDecide env st url now).1 = JSRes.thrown m →
      DecisionEngine.decide env st url now
        = (JSRes.val (createDecision url Action.ALLOW Level.UNKNOWN "error"
            none 0 none false now 0 (some m)),
          (DecisionEngine.tryDecide env st url now).2)) := by
  rcases htry : DecisionEngine.tryDecide env st url now with ⟨res, st'⟩
  constructor
  · intro m
    unfold DecisionEngine.decide
    rw [htry]
    cases res <;> simp
  · intro m hm
    have hres : res = JSRes.thrown m := hm
    subst hres
    unfold DecisionEngine.decide
    rw [htry]

/-- Witness for C1: a feature extractor that throws is converted into the
fail-open ALLOW/UNKNOWN decision. -/
theorem decide_fail_open_witness :
    (DecisionEngine.tryDecide envBoom st0 "https://example.org/" 0).1
      = JSRes.thrown "boom" ∧
    DecisionEngine.decide envBoom st0 "https://example.org/" 0
      = (JSRes.val (createDecision "https://example.org/" Action.ALLOW Level.UNKNOWN "error"
          none 0 none false 0 0 (some "boom")),
        (DecisionEngine.tryDecide envBoom st0 "https://example.org/" 0).2) :=
  ⟨by decide,
    (decide_fail_open envBoom st0 "https://example.org/" 0).2 "boom" (by decide)⟩

/-- Claim C10: for a whitelisted URL, `decide` returns the
ALLOW/SAFE/"whitelisted" decision (probability 0, confidence 1) and the
engine state — in particular the cache's entries and its hit/miss
counters — is completely unchanged: no cache lookup or insertion happens. -/
theorem decide_whitelist_frame (env : Env) (st : EngineState) (url : String) (now : ℕ)
    (h : Whitelist.isWhitelisted st.whitelist url = true) :
    DecisionEngine.decide env st url now
      = (JSRes.val (createDecision url Action.ALLOW Level.SAFE "whitelisted"
          (some 0) 1 none false now 0 none), st) := by
  unfold DecisionEngine.decide DecisionEngine.tryDecide
  rw [h]
  simp

/-- Witness for C10 at a concrete whitelisted URL. -/
theorem decide_whitelist_frame_witness :
    Whitelist.isWhitelisted stWL.whitelist "https://example.com" = true ∧
    DecisionEngine.decide envBoom stWL "https://example.com" 7
      = (JSRes.val (createDecision "https://example.com" Action.ALLOW Level.SAFE
          "whitelisted" (some 0) 1 none false 7 0 none), stWL) :=
  ⟨by decide, decide_whitelist_frame envBoom stWL "https://example.com" 7 (by decide)⟩

lemma predictTreeFuel_sound (t : Tree) (f : List JSNum) :
    ∀ (n i : ℕ) (w : ℚ), predictTreeFuel t f n i = some w → WalkEval t f i w := by
  intro n
  induction n with
  | zero => intro i w h; simp [predictTreeFuel] at h
  | succ k ih =>
    intro i w h
    simp only [predictTreeFuel] at h
    rcases hstep : treeStep t f i with w' | j <;> rw [hstep] at h
    · have hww : w' = w := by simpa using h
      subst hww
      unfold treeStep at hstep
      by_cases hi : i < t.left_children.length
      · rw [if_pos hi] at hstep
        by_cases hl : isLeafAt t i
        · rw [if_pos hl] at hstep
          have hw : t.base_weights.getD i 0 = w' := by
            injection hstep
          rw [← hw]
          exact WalkEval.leaf i hi hl
        · rw [if_neg hl] at hstep
          by_cases ho : nextIdx t f i < 0 ∨ (t.left_children.length : ℤ) ≤ nextIdx t f i
          · rw [if_pos ho] at hstep
            have hw : (0 : ℚ) = w' := by injection hstep
            rw [← hw]
            exact WalkEval.oob i hi hl ho
          · rw [if_neg ho] at hstep
            exact absurd hstep (by simp)
      · rw [if_neg hi] at hstep
        exact absurd hstep (by simp)
    · have hwj := ih j w h
      unfold treeStep at hstep
      by_cases hi : i < t.left_children.length
      · rw [if_pos hi] at hstep
        by_cases hl : isLeafAt t i
        · rw [if_pos hl] at hstep
          exact absurd hstep (by simp)
        · rw [if_neg hl] at hstep
          by_cases ho : nextIdx t f i < 0 ∨ (t.left_children.length : ℤ) ≤ nextIdx t f i
          · rw [if_pos ho] at hstep
            exact absurd hstep (by simp)
          · rw [if_neg ho] at hstep
            have hj : (nextIdx t f i).toNat = j := by injection hstep
            exact WalkEval.step i w hi hl ho (hj ▸ hwj)
      · rw [if_neg hi] at hstep
        have hj : i = j := by injection hstep
        exact hj ▸ hwj

lemma foldl_bind_none (f : List JSNum) (ts : List Tree) :
    ts.foldl (fun acc t => acc.bind fun s => (predictTree t f).map fun w => s + w) none
      = none := by
  induction ts with
  | nil => rfl
  | cons t ts ih => simpa using ih

lemma rawScore_fold_some (f : List JSNum) :
    ∀ (ts : List Tree) (a s : ℚ),
      ts.foldl (fun acc t => acc.bind fun s => (predictTree t f).map fun w => s + w)
        (some a) = some s →
      ∃ ws : List ℚ, List.Forall₂ (fun t w => predictTree t f = some w) ts ws ∧
        s = a + ws.sum := by
  intro ts
  induction ts with
  | nil =>
    intro a s h
    simp at h
    exact ⟨[], List.Forall₂.nil, by simp [h]⟩
  | cons t ts ih =>
    intro a s h
    rcases hw : predictTree t f with _ | w
    · simp only [List.foldl_cons] at h
      rw [show ((some a).bind fun s' => (predictTree t f).map fun w' => s' + w') = none by
        simp [hw]] at h
      rw [foldl_bind_none] at h
      exact absurd h (by simp)
    · simp only [List.foldl_cons] at h
      rw [show ((some a).bind fun s' => (predictTree t f).map fun w' => s' + w')
          = some (a + w) by simp [hw]] at h
      rcases ih (a + w) s h with ⟨ws, hfa, hs⟩
      refine ⟨w :: ws, List.Forall₂.cons hw hfa, ?_⟩
      rw [hs, List.sum_cons]
      ring

lemma rawScore_some (m : Model) (f : List JSNum) (s : ℚ) (h : rawScore m f = some s) :
    ∃ ws : List ℚ, List.Forall₂ (fun t w => predictTree t f = some w) m.trees ws ∧
      s = m.base_score + ws.sum :=
  rawScore_fold_some f m.trees m.base_score s h

lemma rawScore_isSome_of_trees (f : List JSNum) :
    ∀ (ts : List Tree) (a : ℚ), (∀ t ∈ ts, (predictTree t f).isSome = true) →
      (ts.foldl (fun acc t => acc.bind fun s => (predictTree t f).map fun w => s + w)
        (some a)).isSome = true := by
  intro ts
  induction ts with
  | nil => intro a _; simp
  | cons t ts ih =>
    intro a h
    have ht := h t (by simp)
    rcases Option.isSome_iff_exists.mp ht with ⟨w, hw⟩
    simp only [List.foldl_cons]
    rw [show ((some a).bind fun s' => (predictTree t f).map fun w' => s' + w')
        = some (a + w) by simp [hw]]
    exact ih (a + w) fun t' ht' => h t' (by simp [ht'])

lemma rawScore_isSome (m : Model) (f : List JSNum)
    (h : ∀ t ∈ m.trees, (predictTree t f).isSome = true) :
    (rawScore m f).isSome = true :=
  rawScore_isSome_of_trees f m.trees m.base_score h

lemma progressiveB_parts (t : Tree) (h : treeProgressiveB t = true) :
    0 < t.left_children.length ∧
    ∀ i, i < t.left_children.length → ¬ isLeafAt t i →
      (i : ℤ) < t.left_children.getD i 0 ∧
      t.left_children.getD i 0 < (t.left_children.length : ℤ) ∧
      (i : ℤ) < t.right_children.getD i 0 ∧
      t.right_children.getD i 0 < (t.left_children.length : ℤ) := by
  unfold treeProgressiveB at h
  simp only [Bool.and_eq_true, decide_eq_true_eq, List.all_eq_true, List.mem_range] at h
  refine ⟨h.1.1.1.1.1, ?_⟩
  intro i hi hl
  have hh := h.2 i hi
  rw [if_neg hl] at hh
  simpa using hh

lemma predictTreeFuel_isSome_progressive (t : Tree) (f : List JSNum)
    (h : treeProgressiveB t = true) :
    ∀ (k i : ℕ), i < t.left_children.length → t.left_children.length ≤ i + k →
      (predictTreeFuel t f k i).isSome = true := by
  intro k
  induction k with
  | zero => intro i hi hk; omega
  | succ k ih =>
    intro i hi hk
    simp only [predictTreeFuel]
    rcases hstep : treeStep t f i with w | j
    · simp
    · unfold treeStep at hstep
      rw [if_pos hi] at hstep
      by_cases hl : isLeafAt t i
      · rw [if_pos hl] at hstep
        exact absurd hstep (by simp)
      · rw [if_neg hl] at hstep
        by_cases ho : nextIdx t f i < 0 ∨ (t.left_children.length : ℤ) ≤ nextIdx t f i
        · rw [if_pos ho] at hstep
          exact absurd hstep (by simp)
        · rw [if_neg ho] at hstep
          have hj : (nextIdx t f i).toNat = j := by injection hstep
          push_neg at ho
          have hprog := (progressiveB_parts t h).2 i hi hl
          have hlt : (i : ℤ) < nextIdx t f i := by
            unfold nextIdx
            split_ifs
            · exact hprog.1
            · exact hprog.2.2.1
          have hjlt : j < t.left_children.length := by omega
          have hij : i < j := by omega
          exact ih j hjlt (by omega)

lemma predictTree_isSome_progressive (t : Tree) (f : List JSNum)
    (h : treeProgressiveB t = true) : (predictTree t f).isSome = true := by
  have h0 := (progressiveB_parts t h).1
  exact predictTreeFuel_isSome_progressive t f h (t.left_children.length + 1) 0 h0 (by omega)

lemma sigmoid_pos (s : ℚ) : 0 < sigmoid s := by
  unfold sigmoid
  positivity

lemma sigmoid_lt_one (s : ℚ) : sigmoid s < 1 := by
  unfold sigmoid
  rw [div_lt_one (by positivity)]
  have := Real.exp_pos (-(s : ℝ))
  linarith

lemma round4R_nonneg {x : ℝ} (hx : 0 < x) : 0 ≤ round4R x := by
  unfold round4R
  have h1 : (0 : ℤ) ≤ round (x * 10000) := by
    rw [round_eq]
    apply Int.le_floor.mpr
    push_cast
    linarith
  have h2 : (0 : ℚ) ≤ ((round (x * 10000) : ℤ) : ℚ) := by exact_mod_cast h1
  positivity

lemma round4R_le_one {x : ℝ} (hx : x < 1) : round4R x ≤ 1 := by
  unfold round4R
  have h1 : round (x * 10000) ≤ 10000 := by
    rw [round_eq]
    have hfl : ⌊x * 10000 + 1 / 2⌋ < 10001 := by
      apply Int.floor_lt.mpr
      push_cast
      linarith
    omega
  rw [div_le_one (by norm_num)]
  exact_mod_cast h1

lemma predict_val_inv (L : ModelLoader) (f : List JSNum) (p : ℚ)
    (h : Predictor.predict L f = JSRes.val p) :
    ∃ s, rawScore L.model f = some s ∧ p = round4R (sigmoid s) := by
  unfold Predictor.predict at h
  cases hL : L.isLoaded with
  | false =>
    rw [hL] at h
    simp at h
  | true =>
    rw [hL] at h
    rw [if_neg (by simp)] at h
    by_cases h2 : f.length ≠ L.metadata.feature_names.length
    · rw [if_pos h2] at h
      exact absurd h (by simp)
    · rw [if_neg h2] at h
      rcases hr : rawScore L.model f with _ | s <;> rw [hr] at h
      · exact absurd h (by simp)
      · simp only [JSRes.val.injEq] at h
        exact ⟨s, rfl, h.symm⟩

/-- Claim C9: `predict` raises immediately — with the exact "Expected N
features, got M" message, and without padding or truncating — whenever the
feature vector's length differs from the metadata's declared feature
count. -/
theorem predict_length_check (L : ModelLoader) (f : List JSNum)
    (hload : L.isLoaded = true)
    (hlen : f.length ≠ L.metadata.feature_names.length) :
    Predictor.predict L f
      = JSRes.thrown ("Expected " ++ toString L.metadata.feature_names.length
          ++ " features, got " ++ toString f.length) := by
  unfold Predictor.predict
  rw [hload]
  rw [if_neg (by simp), if_pos hlen]

/-- Witness for C9: a 1-element vector against a 0-feature metadata. -/
theorem predict_length_check_witness :
    loader0.isLoaded = true ∧
    ([JSNum.fin 1] : List JSNum).length ≠ loader0.metadata.feature_names.length ∧
    Predictor.predict loader0 [JSNum.fin 1]
      = JSRes.thrown ("Expected " ++ toString loader0.metadata.feature_names.length
          ++ " features, got " ++ toString ([JSNum.fin 1] : List JSNum).length) :=
  ⟨rfl, by decide, predict_length_check loader0 [JSNum.fin 1] rfl (by decide)⟩

/-- Claim C2 as amended: whenever `predict` returns a probability, that
probability is `sigmoid(base_score + Σ tree walk values)` rounded to four
decimal places, where each tree's walk value is characterized by the
declarative `WalkEval` relation (leaf at double -1, route left iff
`feature < threshold`, out-of-bounds child contributes 0), and the result
lies in [0, 1]. -/
theorem predict_sigmoid_characterization (L : ModelLoader) (f : List JSNum) (p : ℚ)
    (h : Predictor.predict L f = JSRes.val p) :
    ∃ ws : List ℚ, List.Forall₂ (fun t w => WalkEval t f 0 w) L.model.trees ws ∧
      p = round4R (sigmoid (L.model.base_score + ws.sum)) ∧ 0 ≤ p ∧ p ≤ 1 := by
  rcases predict_val_inv L f p h with ⟨s, hr, hp⟩
  rcases rawScore_some L.model f s hr with ⟨ws, hfa, hs⟩
  refine ⟨ws, ?_, ?_, ?_, ?_⟩
  · exact hfa.imp fun t w hw => predictTreeFuel_sound t f _ 0 w hw
  · rw [hp, hs]
  · rw [hp]; exact round4R_nonneg (sigmoid_pos _)
  · rw [hp]; exact round4R_le_one (sigmoid_lt_one _)

/-- Witness for C2's amended characterization at the trivial loader. -/
theorem predict_sigmoid_characterization_witness :
    Predictor.predict loader0 [] = JSRes.val prob0 ∧
    (∃ ws : List ℚ, List.Forall₂ (fun t w => WalkEval t [] 0 w) loader0.model.trees ws ∧
      prob0 = round4R (sigmoid (loader0.model.base_score + ws.sum)) ∧
      0 ≤ prob0 ∧ prob0 ≤ 1) :=
  ⟨rfl, predict_sigmoid_characterization loader0 [] prob0 rfl⟩

lemma exp_neg_one_bounds :
    (367879 / 1000000 : ℝ) < Real.exp (-1) ∧ Real.exp (-1) < 36788 / 100000 := by
  have h1 := Real.exp_one_gt_d9
  have h2 := Real.exp_one_lt_d9
  have hpos : (0 : ℝ) < Real.exp 1 := Real.exp_pos 1
  have hneg : (0 : ℝ) < Real.exp (-1) := Real.exp_pos (-1)
  have hinv : Real.exp (-1) * Real.exp 1 = 1 := by
    rw [← Real.exp_add]
    norm_num
  constructor
  · nlinarith
  · nlinarith

lemma sigmoid_one_bounds :
    (7310 / 10000 : ℝ) < sigmoid 1 ∧ sigmoid 1 < 7311 / 10000 := by
  obtain ⟨ha1, ha2⟩ := exp_neg_one_bounds
  unfold sigmoid
  have hc : (-((1 : ℚ) : ℝ)) = -1 := by norm_num
  rw [hc]
  have hden : (0 : ℝ) < 1 + Real.exp (-1) := by positivity
  constructor
  · rw [lt_div_iff₀ hden]
    linarith
  · rw [div_lt_iff₀ hden]
    linarith

/-- Claim C2 counterexample: with no trees and base score 1, `predict`
returns the 4-decimal rounding of `sigmoid(1)`, which is not equal to
`sigmoid(1)` itself — so `predict(features)` does not equal the unrounded
sigmoid of the summed score. -/
theorem predict_rounding_cex :
    Predictor.predict loader1 [] = JSRes.val prob1 ∧ ((prob1 : ℚ) : ℝ) ≠ sigmoid 1 := by
  constructor
  · rfl
  · intro heq
    obtain ⟨hb1, hb2⟩ := sigmoid_one_bounds
    have hq : ((prob1 : ℚ) : ℝ) = ((round (sigmoid 1 * 10000) : ℤ) : ℝ) / 10000 := by
      unfold prob1 round4R
      push_cast
      ring
    rw [hq] at heq
    have hz : ((round (sigmoid 1 * 10000) : ℤ) : ℝ) = sigmoid 1 * 10000 := by
      field_simp at heq
      linarith
    have h1 : (7310 : ℝ) < ((round (sigmoid 1 * 10000) : ℤ) : ℝ) := by
      rw [hz]; linarith
    have h2 : ((round (sigmoid 1 * 10000) : ℤ) : ℝ) < 7311 := by
      rw [hz]; linarith
    have h1i : (7310 : ℤ) < round (sigmoid 1 * 10000) := by exact_mod_cast h1
    have h2i : round (sigmoid 1 * 10000) < 7311 := by exact_mod_cast h2
    omega

/-- Claim C6 counterexample: `cycTree` satisfies the claim's well-formedness
(its only child index, 0, is a valid index), yet the traversal cycles: no
amount of fuel makes the walk return, and `predict` diverges. -/
theorem predict_cycle_cex :
    claimWellFormedB cycTree = true ∧
    Predictor.predict cycLoader [JSNum.fin 0] = JSRes.hangs ∧
    ¬ TreeTerminates cycTree [JSNum.fin 0] := by
  refine ⟨by decide, rfl, ?_⟩
  rintro ⟨n, hn⟩
  have hall : ∀ m, predictTreeFuel cycTree [JSNum.fin 0] m 0 = none := by
    intro m
    induction m with
    | zero => rfl
    | succ k ih =>
      have hstep : treeStep cycTree [JSNum.fin 0] 0 = Sum.inr 0 := by decide
      simp only [predictTreeFuel, hstep]
      exact ih
  rw [hall n] at hn
  simp at hn

/-- Claim C6 as amended: for a loaded model every tree of which has
nonempty parallel node arrays and, at every non-leaf node, in-bounds child
indices strictly greater than the node's own index (the layout XGBoost
serializes), and a feature vector of the declared length, `predict`
terminates with a probability in [0, 1] for every feature vector —
including NaN and infinite entries, NaN routing right because
`NaN < threshold` is false. -/
theorem predict_terminates (L : ModelLoader) (f : List JSNum)
    (hload : L.isLoaded = true)
    (hlen : f.length = L.metadata.feature_names.length)
    (hprog : modelProgressiveB L.model = true) :
    (∃ p : ℚ, Predictor.predict L f = JSRes.val p ∧ 0 ≤ p ∧ p ≤ 1) ∧
    (∀ c : ℚ, jsLt JSNum.nan c = false) := by
  constructor
  · have htrees : ∀ t ∈ L.model.trees, (predictTree t f).isSome = true := by
      intro t ht
      have hp : treeProgressiveB t = true := by
        unfold modelProgressiveB at hprog
        rw [List.all_eq_true] at hprog
        exact hprog t ht
      exact predictTree_isSome_progressive t f hp
    have hraw := rawScore_isSome L.model f htrees
    rcases Option.isSome_iff_exists.mp hraw with ⟨s, hs⟩
    refine ⟨round4R (sigmoid s), ?_, round4R_nonneg (sigmoid_pos s),
      round4R_le_one (sigmoid_lt_one s)⟩
    unfold Predictor.predict
    rw [hload]
    rw [if_neg (by simp), if_neg (not_ne_iff.mpr hlen), hs]
  · intro c
    rfl

/-- Witness for C6's amended termination at a single-leaf tree. -/
theorem predict_terminates_witness :
    leafLoader.isLoaded = true ∧
    ([JSNum.fin 3] : List JSNum).length = leafLoader.metadata.feature_names.length ∧
    modelProgressiveB leafLoader.model = true ∧
    ((∃ p : ℚ, Predictor.predict leafLoader [JSNum.fin 3] = JSRes.val p ∧ 0 ≤ p ∧ p ≤ 1) ∧
      (∀ c : ℚ, jsLt JSNum.nan c = false)) :=
  ⟨rfl, rfl, by decide, predict_terminates leafLoader [JSNum.fin 3] rfl rfl (by decide)⟩

lemma round4Q_int_div (z : ℤ) : round4Q ((z : ℚ) / 10000) = (z : ℚ) / 10000 := by
  unfold round4Q
  rw [show ((z : ℚ) / 10000) * 10000 = (z : ℚ) by field_simp]
  rw [round_intCast]

lemma round4Q_one_sub_int_div (z : ℤ) :
    round4Q (1 - (z : ℚ) / 10000) = 1 - (z : ℚ) / 10000 := by
  unfold round4Q
  rw [show (1 - (z : ℚ) / 10000) * 10000 = ((10000 - z : ℤ) : ℚ) by push_cast; ring]
  rw [round_intCast]
  push_cast
  ring

lemma prob0_eq : prob0 = 1/2 := by
  unfold prob0 round4R
  have hs : sigmoid 0 = 1/2 := by
    unfold sigmoid
    norm_num [Real.exp_zero]
  rw [hs]
  rw [show ((1 : ℝ)/2) * 10000 = ((5000 : ℤ) : ℝ) by norm_num]
  rw [round_intCast]
  norm_num

lemma round4Q_half : round4Q (1/2 : ℚ) = 1/2 := by
  rw [show (1/2 : ℚ) = ((5000 : ℤ) : ℚ) / 10000 by norm_num]
  exact round4Q_int_div 5000

/-- Claim C5: whenever `predictWithConfidence` returns, its level is
PHISHING iff `probability ≥ threshold`, SUSPICIOUS iff
`threshold − 0.20 ≤ probability < threshold`, SAFE otherwise, and its
confidence equals `probability` for non-SAFE levels and `1 − probability`
for SAFE. -/
theorem predictWithConfidence_spec (L : ModelLoader) (f : List JSNum) (out : PredOut)
    (h : Predictor.predictWithConfidence L f = JSRes.val out) :
    (out.level = Level.PHISHING ↔ ModelLoader.getThreshold L ≤ out.probability) ∧
    (out.level = Level.SUSPICIOUS ↔
      ModelLoader.getThreshold L - 1/5 ≤ out.probability ∧
      out.probability < ModelLoader.getThreshold L) ∧
    (out.level = Level.SAFE ↔
      out.probability < ModelLoader.getThreshold L - 1/5) ∧
    out.confidence
      = (if out.level = Level.SAFE then 1 - out.probability else out.probability) := by
  unfold Predictor.predictWithConfidence at h
  rcases hp : Predictor.predict L f with m | _ | p <;> rw [hp] at h
  · exact absurd h (by simp)
  · exact absurd h (by simp)
  · obtain ⟨s, hr, hps⟩ := predict_val_inv L f p hp
    obtain ⟨z, hzp⟩ : ∃ z : ℤ, p = (z : ℚ) / 10000 :=
      ⟨round (sigmoid s * 10000), by rw [hps]; rfl⟩
    simp only [JSRes.val.injEq] at h
    have hprob : out.probability = p := by rw [← h]
    have hlev : out.level = classifyLevel (ModelLoader.getThreshold L) p := by rw [← h]
    have hconf : out.confidence
        = round4Q (if classifyLevel (ModelLoader.getThreshold L) p = Level.SAFE
            then 1 - p else p) := by rw [← h]
    rw [hprob, hlev, hconf]
    unfold classifyLevel
    by_cases h1 : ModelLoader.getThreshold L ≤ p
    · simp only [if_pos h1]
      exact ⟨⟨fun _ => h1, fun _ => trivial⟩,
        ⟨fun hh => absurd hh (by decide), fun hc => absurd h1 (not_le.mpr hc.2)⟩,
        ⟨fun hh => absurd hh (by decide), fun hlt => absurd h1 (not_le.mpr (by linarith))⟩,
        by rw [hzp]; exact round4Q_int_div z⟩
    · by_cases h2 : ModelLoader.getThreshold L - 1/5 ≤ p
      · simp only [if_neg h1, if_pos h2]
        exact ⟨⟨fun hh => absurd hh (by decide), fun hle => absurd hle h1⟩,
          ⟨fun _ => ⟨h2, lt_of_not_le h1⟩, fun _ => trivial⟩,
          ⟨fun hh => absurd hh (by decide), fun hlt => absurd h2 (not_le.mpr hlt)⟩,
          by rw [hzp]; exact round4Q_int_div z⟩
      · simp only [if_neg h1, if_neg h2]
        exact ⟨⟨fun hh => absurd hh (by decide), fun hle => absurd hle h1⟩,
          ⟨fun hh => absurd hh (by decide), fun hc => absurd hc.1 h2⟩,
          ⟨fun _ => lt_of_not_le h2, fun _ => trivial⟩,
          by rw [hzp]; exact round4Q_one_sub_int_div z⟩

lemma pwc_loader0 : Predictor.predictWithConfidence loader0 [] = JSRes.val outHalf := by
  have hlv : classifyLevel (7/10) (1/2) = Level.SUSPICIOUS := by
    unfold classifyLevel
    rw [if_neg (by norm_num), if_pos (by norm_num)]
  unfold Predictor.predictWithConfidence
  rw [show Predictor.predict loader0 [] = JSRes.val prob0 from rfl, prob0_eq]
  show JSRes.val ⟨1/2,
      round4Q (if classifyLevel (ModelLoader.getThreshold loader0) (1/2) = Level.SAFE
        then 1 - (1/2 : ℚ) else (1/2 : ℚ)),
      classifyLevel (ModelLoader.getThreshold loader0) (1/2),
      ModelLoader.getThreshold loader0⟩ = JSRes.val outHalf
  rw [show ModelLoader.getThreshold loader0 = 7/10 from rfl, hlv]
  rw [if_neg (by decide), round4Q_half]
  rfl

/-- Witness for C5 at the trivial loader: probability 1/2 is SUSPICIOUS at
threshold 0.70 with confidence 1/2. -/
theorem predictWithConfidence_spec_witness :
    Predictor.predictWithConfidence loader0 [] = JSRes.val outHalf ∧
    ((outHalf.level = Level.PHISHING ↔
        ModelLoader.getThreshold loader0 ≤ outHalf.probability) ∧
      (outHalf.level = Level.SUSPICIOUS ↔
        ModelLoader.getThreshold loader0 - 1/5 ≤ outHalf.probability ∧
        outHalf.probability < ModelLoader.getThreshold loader0) ∧
      (outHalf.level = Level.SAFE ↔
        outHalf.probability < ModelLoader.getThreshold loader0 - 1/5) ∧
      outHalf.confidence
        = (if outHalf.level = Level.SAFE then 1 - outHalf.probability
            else outHalf.probability)) :=
  ⟨pwc_loader0, predictWithConfidence_spec loader0 [] outHalf pwc_loader0⟩

end PhishBlock
